import Mathlib

/-!
# Verification of the Fourier-epicycle pipeline of `learn_01/main.py`

This file gives a shallow embedding of the algorithmic core of the repository:

* `generate_polygon_points` — random polygon generation (randomness is modelled
  by passing the drawn points as an explicit argument);
* `resample_polygon_points` — arc-length resampling via `np.interp`;
* `fft_sample_points` — normalised DFT, magnitude ranking (`np.argsort` reversed),
  truncation to the strongest components, and the validation reconstruction;
* the per-frame synthesizer of `animate_polygon_points` (`update`, `frame_gen`)
  and the per-frame angle of `animate_circles.update`.

Machine floating point is modelled by exact real/complex arithmetic, so
"within floating-point tolerance" statements become exact equalities.
`np.argsort` is modelled with stable-sort semantics (ties keep the original
index order), which is the deterministic reading used by the specification;
`np.argsort(...)[::-1]` is the reversal of that stable ascending sort.
Python exceptions (indexing an empty array, FFT of an empty array) are
modelled by `Option`: `none` means the call raises.
-/

namespace EpicycleModel

noncomputable section

open Complex

/-! ## Stable argsort (model of `np.argsort`)

`np.argsort` on a key array is modelled as sorting the indices `0, …, n-1`
by the key, breaking ties by the original index (stable semantics).  This
is exactly sorting by the linear order `key i < key j ∨ (key i = key j ∧ i ≤ j)`.
-/

/-- The comparison used by a stable argsort: sort by key value, ties broken
by the original index. -/
def sortKeyRel (key : ℕ → ℝ) (i j : ℕ) : Prop :=
  key i < key j ∨ (key i = key j ∧ i ≤ j)

instance sortKeyRelDec (key : ℕ → ℝ) : DecidableRel (sortKeyRel key) :=
  fun _ _ => Classical.dec _

instance sortKeyRelTotal (key : ℕ → ℝ) : IsTotal ℕ (sortKeyRel key) := by
  constructor
  intro i j
  rcases lt_trichotomy (key i) (key j) with h | h | h
  · exact Or.inl (Or.inl h)
  · rcases le_total i j with hij | hij
    · exact Or.inl (Or.inr ⟨h, hij⟩)
    · exact Or.inr (Or.inr ⟨h.symm, hij⟩)
  · exact Or.inr (Or.inl h)

instance sortKeyRelTrans (key : ℕ → ℝ) : IsTrans ℕ (sortKeyRel key) := by
  constructor
  intro a b c hab hbc
  rcases hab with hab | ⟨hab, hab'⟩
  · rcases hbc with hbc | ⟨hbc, _⟩
    · exact Or.inl (hab.trans hbc)
    · exact Or.inl (hbc ▸ hab)
  · rcases hbc with hbc | ⟨hbc, hbc'⟩
    · exact Or.inl (hab ▸ hbc)
    · exact Or.inr ⟨hab.trans hbc, hab'.trans hbc'⟩

/-- `np.argsort(key)` over indices `0, …, n-1`, stable ascending order. -/
def argsortAsc (key : ℕ → ℝ) (n : ℕ) : List ℕ :=
  List.insertionSort (sortKeyRel key) (List.range n)

/-- `np.argsort(key)[::-1]`: the reversal of the stable ascending argsort. -/
def argsortDesc (key : ℕ → ℝ) (n : ℕ) : List ℕ :=
  (argsortAsc key n).reverse

lemma argsortAsc_perm (key : ℕ → ℝ) (n : ℕ) :
    (argsortAsc key n).Perm (List.range n) :=
  List.perm_insertionSort _ _

lemma argsortDesc_perm (key : ℕ → ℝ) (n : ℕ) :
    (argsortDesc key n).Perm (List.range n) :=
  (List.reverse_perm _).trans (argsortAsc_perm key n)

lemma argsortDesc_nodup (key : ℕ → ℝ) (n : ℕ) : (argsortDesc key n).Nodup :=
  ((argsortDesc_perm key n).nodup_iff).mpr (List.nodup_range n)

lemma argsortDesc_length (key : ℕ → ℝ) (n : ℕ) :
    (argsortDesc key n).length = n := by
  simpa using (argsortDesc_perm key n).length_eq

lemma argsortDesc_mem_lt (key : ℕ → ℝ) (n : ℕ) {a : ℕ}
    (ha : a ∈ argsortDesc key n) : a < n :=
  List.mem_range.mp ((argsortDesc_perm key n).mem_iff.mp ha)

/-! ## `generate_polygon_points`

The random integer draws of `np.random.randint` are passed as the explicit
list `z`.  `np.max` of a nonempty array of absolute values is modelled by a
`max`-fold seeded with `0`, which is neutral because every entry is `≥ 0`.
For an empty `z` the Python code raises (`z_order[0]` on an empty array),
modelled by `none`. -/
def generate_polygon_points (z : List ℂ) : Option (List ℂ) :=
  if z.isEmpty then none
  else some (
    let center := z.sum / z.length
    let ord := argsortAsc (fun j => Complex.arg (z.getD j 0 - center)) z.length
    let zOrder := ord.map (fun j => z.getD j 0)
    let zClosed := zOrder ++ [zOrder.headD 0]
    let zShifted := zClosed.map (fun p => p - center)
    let maxAbs := (zShifted.map Complex.abs).foldr max 0
    zShifted.map (fun p => p / maxAbs))

/-! ## `resample_polygon_points` -/

/-- One lookup of `np.interp x xp fp`, the table given as `(xp, fp)` pairs.
Piecewise-linear interpolation for an increasing `xp`: values left of the
table clamp to the first `fp`, values right of it clamp to the last `fp`
(`np.interp` documents only increasing `xp`; the model scans the segments
left to right). -/
def interp (x : ℝ) : List (ℝ × ℝ) → ℝ
  | [] => 0
  | [(_, f0)] => f0
  | (x0, f0) :: (x1, f1) :: rest =>
    if x ≤ x0 then f0
    else if x ≤ x1 then f0 + (f1 - f0) * (x - x0) / (x1 - x0)
    else interp x ((x1, f1) :: rest)

/-- `np.linspace a b m`: `m` evenly spaced values from `a` to `b`, both
endpoints included (for `m = 1` numpy returns `[a]`, which the model matches
because `x / 0 = 0` in Lean). -/
def linspace (a b : ℝ) (m : ℕ) : List ℝ :=
  (List.range m).map (fun i : ℕ => a + (b - a) * (i : ℝ) / ((m : ℝ) - 1))

/-- `np.abs(np.diff(points))`: distances between consecutive vertices. -/
def diffDists (points : List ℂ) : List ℝ :=
  (points.zip points.tail).map (fun p => Complex.abs (p.2 - p.1))

/-- Cumulative sums prefixed with the accumulator, mirroring
`np.concatenate(([0], np.cumsum(dists)))` when started at `0`. -/
def cumFrom (acc : ℝ) : List ℝ → List ℝ
  | [] => [acc]
  | d :: ds => acc :: cumFrom (acc + d) ds

/-- `cum_dists = np.concatenate(([0], np.cumsum(dists)))`. -/
def cumDists (points : List ℂ) : List ℝ :=
  cumFrom 0 (diffDists points)

/-- `total_dist = cum_dists[-1]`, the total perimeter length. -/
def totalDist (points : List ℂ) : ℝ :=
  (cumDists points).getLastD 0

/-- `resample_polygon_points`.  For empty input `np.interp` raises
(`fp` and `xp` have different lengths), modelled by `none`.  Otherwise the
real and imaginary coordinates are interpolated independently against the
cumulative-distance array and recombined as `x + 1j * y`. -/
def resample_polygon_points (points : List ℂ) (m : ℕ) : Option (List ℂ) :=
  if points.isEmpty then none
  else some (
    (linspace 0 (totalDist points) m).map (fun d =>
      (interp d ((cumDists points).zip (points.map Complex.re)) : ℂ) +
      Complex.I * (interp d ((cumDists points).zip (points.map Complex.im)))))

/-! ## `fft_sample_points` -/

/-- `np.fft.fftfreq n` at index `j`: `j / n` for `j ≤ (n-1)/2` (the
non-negative bins) and `(j - n) / n` for the remaining (negative) bins. -/
def fftfreq (n j : ℕ) : ℝ :=
  if j ≤ (n - 1) / 2 then (j : ℝ) / n else ((j : ℝ) - n) / n

/-- `np.fft.fft(sample_points) / n_sample_points` at frequency index `k`:
the discrete Fourier transform `∑_j s j · exp(-2πi·j·k/n)` divided by `n`.
The samples are the function `s` on indices `0, …, n-1`. -/
def fftv (s : ℕ → ℂ) (n k : ℕ) : ℂ :=
  (∑ j ∈ Finset.range n, s j *
    Complex.exp (-(2 * (Real.pi : ℂ) * Complex.I) * j * k / n)) / n

/-- The sort key of `np.argsort(np.abs(fft_values))`: coefficient magnitude. -/
def magKey (s : ℕ → ℂ) (n : ℕ) (j : ℕ) : ℝ :=
  Complex.abs (fftv s n j)

/-- The impulse sample sequence `1, 0` (length 2) used to exhibit the
tie-breaking of the magnitude ranking: both DFT coefficients equal `1/2`. -/
def sDelta : ℕ → ℂ := fun j => if j = 0 then 1 else 0

/-- `idx = np.argsort(np.abs(fft_values))[::-1]`: frequency indices ranked
by descending magnitude. -/
def sortedIdx (s : ℕ → ℂ) (n : ℕ) : List ℕ :=
  argsortDesc (magKey s n) n

/-- `fft_values[idx]`: the coefficients in ranked order. -/
def fftSorted (s : ℕ → ℂ) (n : ℕ) : List ℂ :=
  (sortedIdx s n).map (fftv s n)

/-- `freqs[idx]`: the frequencies in ranked order. -/
def freqsSorted (s : ℕ → ℂ) (n : ℕ) : List ℝ :=
  (sortedIdx s n).map (fftfreq n)

/-- `radius = np.abs(fft_values[:k])`. -/
def radiusList (s : ℕ → ℂ) (n k : ℕ) : List ℝ :=
  ((fftSorted s n).take k).map Complex.abs

/-- `theta = np.angle(fft_values[:k])`. -/
def thetaList (s : ℕ → ℂ) (n k : ℕ) : List ℝ :=
  ((fftSorted s n).take k).map Complex.arg

/-- `speed = 2 * np.pi * freqs[:k]`. -/
def speedList (s : ℕ → ℂ) (n k : ℕ) : List ℝ :=
  ((freqsSorted s n).take k).map (fun f => 2 * Real.pi * f)

/-- One entry of the validation reconstruction,
`np.sum(fft_values * np.exp(1j * speed * t))` over the `k` retained
components, evaluated at sample index `t`. -/
def reconPoint (s : ℕ → ℂ) (n k : ℕ) (t : ℕ) : ℂ :=
  ((((fftSorted s n).take k).zip (speedList s n k)).map
    (fun p => p.1 * Complex.exp (Complex.I * p.2 * t))).sum

/-- `fft_points`: the reconstruction at the `n` original sample indices with
the first entry appended once more (`np.r_[fft_points, fft_points[0]]`). -/
def fftPoints (s : ℕ → ℂ) (n k : ℕ) : List ℂ :=
  ((List.range n).map (reconPoint s n k)) ++
    [((List.range n).map (reconPoint s n k)).headD 0]

/-! ## The synthesizer (`animate_polygon_points` and `animate_circles`) -/

/-- Per-component angle of `animate_circles.update`:
`theta_i = t + s * frame`. -/
def circlesTheta (t s : ℝ) (frame : ℕ) : ℝ :=
  t + s * frame

/-- Per-component angle of `animate_polygon_points.update`:
`theta_i = t + s * frame * 0.5`. -/
def polygonTheta (t s : ℝ) (frame : ℕ) : ℝ :=
  t + s * frame * 0.5

/-- The terminal point of `animate_polygon_points.update` at a frame: the
accumulated `center += r * np.exp(1j * theta_i)` over the component lists. -/
def terminalPoint (radius theta speed : List ℝ) (frame : ℕ) : ℂ :=
  (((radius.zip theta).zip speed).map
    (fun p => (p.1.1 : ℂ) *
      Complex.exp (Complex.I * (polygonTheta p.1.2 p.2 frame : ℝ)))).sum

/-- The loop-closure test of `frame_gen`:
`len(trace_points) > 2 and np.abs(trace_points[-1] - trace_points[0]) < 1e-10`. -/
def stopCond (tps : List ℂ) : Prop :=
  2 < tps.length ∧ Complex.abs (tps.getLastD 0 - tps.headD 0) < 1e-10

instance stopCondDec (tps : List ℂ) : Decidable (stopCond tps) :=
  Classical.dec _

/-- The frames actually generated, interleaving `frame_gen` with `update`:
with `fuel` loop iterations left, `frame_gen` first tests `stopCond` on the
trace accumulated so far and stops if it holds; otherwise it yields the
frame index `i`, after which `update` appends the terminal point of frame
`i` to the trace. -/
def runFrames (radius theta speed : List ℝ) :
    ℕ → ℕ → List ℂ → List ℕ
  | 0, _, _ => []
  | fuel + 1, i, tps =>
    if stopCond tps then []
    else i :: runFrames radius theta speed fuel (i + 1)
      (tps ++ [terminalPoint radius theta speed i])

/-! ## Fourier analysis of the decomposer

The rotating factors `exp(1j * speed * t)` appearing in the reconstruction
are, at integer sample indices, the characters `exp(2πi·m/n)`; the lemmas
below establish their orthogonality and the DFT inversion formula, the
mathematical backbone of the round-trip, Parseval and residual claims. -/

/-- The character `exp(2πi·m/n)` with integer numerator `m`. -/
def eN (n : ℕ) (m : ℤ) : ℂ :=
  Complex.exp (2 * (Real.pi : ℂ) * Complex.I * m / n)

lemma eN_add (n : ℕ) (a b : ℤ) : eN n (a + b) = eN n a * eN n b := by
  rw [eN, eN, eN, ← Complex.exp_add]
  congr 1
  push_cast
  ring

lemma eN_pow (n : ℕ) (m : ℤ) (t : ℕ) : eN n (m * t) = eN n m ^ t := by
  rw [eN, eN, ← Complex.exp_nat_mul]
  congr 1
  push_cast
  ring

lemma eN_eq_one (n : ℕ) (hn : 0 < n) {m : ℤ} (h : (n : ℤ) ∣ m) : eN n m = 1 := by
  obtain ⟨c, rfl⟩ := h
  have hne : (n : ℂ) ≠ 0 := Nat.cast_ne_zero.mpr hn.ne'
  rw [eN]
  have harg : 2 * (Real.pi : ℂ) * Complex.I * (((n : ℤ) * c : ℤ) : ℂ) / n =
      (c : ℂ) * (2 * (Real.pi : ℂ) * Complex.I) := by
    push_cast
    field_simp
    ring
  rw [harg]
  exact Complex.exp_int_mul_two_pi_mul_I c

lemma eN_ne_one (n : ℕ) (hn : 0 < n) {m : ℤ} (h : ¬ (n : ℤ) ∣ m) : eN n m ≠ 1 := by
  intro h1
  rw [eN, Complex.exp_eq_one_iff] at h1
  obtain ⟨c, hc⟩ := h1
  apply h
  refine ⟨c, ?_⟩
  have hne : (n : ℂ) ≠ 0 := Nat.cast_ne_zero.mpr hn.ne'
  have h2 : (2 * (Real.pi : ℂ) * Complex.I) ≠ 0 := by
    simp [Real.pi_ne_zero, Complex.I_ne_zero]
  have hm : (m : ℂ) = (n : ℂ) * c := by
    apply mul_left_cancel₀ h2
    field_simp at hc
    linear_combination hc
  exact_mod_cast hm

lemma sum_eN (n : ℕ) (hn : 0 < n) (m : ℤ) :
    ∑ t ∈ Finset.range n, eN n (m * t) = if (n : ℤ) ∣ m then (n : ℂ) else 0 := by
  by_cases h : (n : ℤ) ∣ m
  · rw [if_pos h]
    have h1 : ∀ t ∈ Finset.range n, eN n (m * t) = 1 := fun t _ =>
      eN_eq_one n hn (h.mul_right t)
    rw [Finset.sum_congr rfl h1]
    simp
  · rw [if_neg h]
    have hz : eN n m ≠ 1 := eN_ne_one n hn h
    have hpow : ∀ t ∈ Finset.range n, eN n (m * t) = eN n m ^ t := fun t _ =>
      eN_pow n m t
    rw [Finset.sum_congr rfl hpow, geom_sum_eq hz]
    have hone : eN n m ^ n = 1 := by
      rw [← eN_pow]
      exact eN_eq_one n hn ⟨m, mul_comm m n⟩
    rw [hone]
    simp

lemma dvd_sub_cancel {n t j : ℕ} (ht : t < n) (hj : j < n)
    (h : (n : ℤ) ∣ ((t : ℤ) - j)) : t = j := by
  have h0 : ((t : ℤ) - j).natAbs < (n : ℤ).natAbs := by omega
  have h1 := Int.eq_zero_of_dvd_of_natAbs_lt_natAbs h h0
  omega

lemma fftv_eq (s : ℕ → ℂ) (n k : ℕ) :
    fftv s n k = (∑ j ∈ Finset.range n, s j * eN n (-((j : ℤ) * k))) / n := by
  unfold fftv eN
  congr 1
  refine Finset.sum_congr rfl fun j _ => ?_
  congr 1
  congr 1
  push_cast
  ring

/-- DFT inversion: summing all `n` normalised coefficients against the
forward characters reproduces the sample at any index `t < n`. -/
lemma dft_inversion (s : ℕ → ℂ) (n : ℕ) (t : ℕ) (ht : t < n) :
    ∑ f ∈ Finset.range n, fftv s n f * eN n ((f : ℤ) * t) = s t := by
  have hn : 0 < n := lt_of_le_of_lt (Nat.zero_le t) ht
  have hne : (n : ℂ) ≠ 0 := Nat.cast_ne_zero.mpr hn.ne'
  have hstep : ∀ f ∈ Finset.range n,
      fftv s n f * eN n ((f : ℤ) * t) =
        (∑ j ∈ Finset.range n, s j * eN n (((t : ℤ) - j) * f)) / n := by
    intro f _
    rw [fftv_eq, div_mul_eq_mul_div, Finset.sum_mul]
    congr 1
    refine Finset.sum_congr rfl fun j _ => ?_
    rw [mul_assoc, ← eN_add]
    congr 2
    ring
  rw [Finset.sum_congr rfl hstep, ← Finset.sum_div, Finset.sum_comm]
  have hin : ∀ j ∈ Finset.range n,
      ∑ f ∈ Finset.range n, s j * eN n (((t : ℤ) - j) * f) =
        s j * (if (n : ℤ) ∣ ((t : ℤ) - j) then (n : ℂ) else 0) := by
    intro j _
    rw [← Finset.mul_sum]
    congr 1
    exact sum_eN n hn ((t : ℤ) - j)
  rw [Finset.sum_congr rfl hin, Finset.sum_eq_single t]
  · rw [if_pos (by simp)]
    field_simp
  · intro j hjmem hjne
    rw [if_neg, mul_zero]
    intro hd
    exact hjne (dvd_sub_cancel ht (Finset.mem_range.mp hjmem) hd).symm
  · intro habs
    exact absurd (Finset.mem_range.mpr ht) habs

lemma eN_conj (n : ℕ) (m : ℤ) :
    (starRingEnd ℂ) (eN n m) = eN n (-m) := by
  rw [eN, eN, ← Complex.exp_conj]
  congr 1
  simp only [map_div₀, map_mul, Complex.conj_I, Complex.conj_ofReal, map_ofNat,
    map_intCast, map_natCast]
  push_cast
  ring

/-- Orthogonality of the characters, summed form: the total energy of a
linear combination of distinct characters is `n` times the coefficient
energy. -/
lemma energy_sum (n : ℕ) (hn : 0 < n) (c : ℕ → ℂ) (T : Finset ℕ)
    (hT : T ⊆ Finset.range n) :
    ∑ t ∈ Finset.range n, Complex.normSq (∑ f ∈ T, c f * eN n ((f : ℤ) * t)) =
      n * ∑ f ∈ T, Complex.normSq (c f) := by
  have expand : ∀ t : ℕ,
      (∑ f ∈ T, c f * eN n ((f : ℤ) * t)) *
        (starRingEnd ℂ) (∑ g ∈ T, c g * eN n ((g : ℤ) * t)) =
      ∑ f ∈ T, ∑ g ∈ T,
        c f * (starRingEnd ℂ) (c g) * eN n (((f : ℤ) - g) * t) := by
    intro t
    rw [map_sum, Finset.sum_mul_sum]
    refine Finset.sum_congr rfl fun f _ => Finset.sum_congr rfl fun g _ => ?_
    rw [map_mul, eN_conj]
    have hmul : eN n ((f : ℤ) * t) * eN n (-((g : ℤ) * t)) =
        eN n (((f : ℤ) - g) * t) := by
      rw [← eN_add]
      congr 1
      ring
    calc c f * eN n ((f : ℤ) * t) * ((starRingEnd ℂ) (c g) * eN n (-((g : ℤ) * t)))
        = c f * (starRingEnd ℂ) (c g) * (eN n ((f : ℤ) * t) * eN n (-((g : ℤ) * t))) := by
          ring
      _ = c f * (starRingEnd ℂ) (c g) * eN n (((f : ℤ) - g) * t) := by rw [hmul]
  have hC : ∑ t ∈ Finset.range n,
      (∑ f ∈ T, c f * eN n ((f : ℤ) * t)) *
        (starRingEnd ℂ) (∑ g ∈ T, c g * eN n ((g : ℤ) * t)) =
      (n : ℂ) * ∑ f ∈ T, c f * (starRingEnd ℂ) (c f) := by
    rw [Finset.sum_congr rfl fun t _ => expand t, Finset.sum_comm]
    have hfg : ∀ f ∈ T,
        ∑ t ∈ Finset.range n, ∑ g ∈ T,
          c f * (starRingEnd ℂ) (c g) * eN n (((f : ℤ) - g) * t) =
        (c f * (starRingEnd ℂ) (c f)) * n := by
      intro f hf
      rw [Finset.sum_comm]
      have hgsum : ∀ g ∈ T,
          ∑ t ∈ Finset.range n,
            c f * (starRingEnd ℂ) (c g) * eN n (((f : ℤ) - g) * t) =
          c f * (starRingEnd ℂ) (c g) *
            (if (n : ℤ) ∣ ((f : ℤ) - g) then (n : ℂ) else 0) := by
        intro g _
        rw [← Finset.mul_sum, sum_eN n hn]
      rw [Finset.sum_congr rfl hgsum, Finset.sum_eq_single f]
      · rw [if_pos (by simp)]
      · intro g hgmem hgne
        rw [if_neg, mul_zero]
        intro hd
        exact hgne (dvd_sub_cancel (Finset.mem_range.mp (hT hf))
          (Finset.mem_range.mp (hT hgmem)) hd).symm
      · intro habs
        exact absurd hf habs
    rw [Finset.sum_congr rfl hfg, ← Finset.sum_mul, mul_comm]
  have hL : ∀ t : ℕ,
      ((Complex.normSq (∑ f ∈ T, c f * eN n ((f : ℤ) * t)) : ℝ) : ℂ) =
      (∑ f ∈ T, c f * eN n ((f : ℤ) * t)) *
        (starRingEnd ℂ) (∑ g ∈ T, c g * eN n ((g : ℤ) * t)) :=
    fun t => (Complex.mul_conj _).symm
  have hR : ∀ f : ℕ, ((Complex.normSq (c f) : ℝ) : ℂ) =
      c f * (starRingEnd ℂ) (c f) := fun f => (Complex.mul_conj _).symm
  have hfinal : ((∑ t ∈ Finset.range n,
      Complex.normSq (∑ f ∈ T, c f * eN n ((f : ℤ) * t)) : ℝ) : ℂ) =
      (((n : ℝ) * ∑ f ∈ T, Complex.normSq (c f) : ℝ) : ℂ) := by
    push_cast
    rw [Finset.sum_congr rfl fun t _ => hL t, hC,
      Finset.sum_congr rfl fun f _ => hR f]
  exact_mod_cast hfinal

/-- Parseval for the normalised DFT: coefficient energy is sample energy
divided by `n`. -/
lemma parseval (s : ℕ → ℂ) (n : ℕ) (hn : 0 < n) :
    ∑ f ∈ Finset.range n, Complex.normSq (fftv s n f) =
      (∑ j ∈ Finset.range n, Complex.normSq (s j)) / n := by
  have h := energy_sum n hn (fftv s n) (Finset.range n) (subset_refl _)
  have h2 : ∀ t ∈ Finset.range n,
      Complex.normSq (∑ f ∈ Finset.range n, fftv s n f * eN n ((f : ℤ) * t)) =
        Complex.normSq (s t) := fun t htm => by
    rw [dft_inversion s n t (Finset.mem_range.mp htm)]
  rw [Finset.sum_congr rfl h2] at h
  have hne : (n : ℝ) ≠ 0 := Nat.cast_ne_zero.mpr hn.ne'
  rw [h, mul_div_cancel_left₀ _ hne]

lemma sortedIdx_length (s : ℕ → ℂ) (n : ℕ) : (sortedIdx s n).length = n := by
  rw [sortedIdx]
  exact argsortDesc_length _ _

lemma sortedIdx_perm (s : ℕ → ℂ) (n : ℕ) :
    (sortedIdx s n).Perm (List.range n) := by
  rw [sortedIdx]
  exact argsortDesc_perm _ _

lemma sortedIdx_nodup (s : ℕ → ℂ) (n : ℕ) : (sortedIdx s n).Nodup := by
  rw [sortedIdx]
  exact argsortDesc_nodup _ _

lemma sortedIdx_mem_lt (s : ℕ → ℂ) (n : ℕ) {a : ℕ}
    (ha : a ∈ sortedIdx s n) : a < n := by
  rw [sortedIdx] at ha
  exact argsortDesc_mem_lt _ _ ha

lemma list_map_sum_range {M : Type*} [AddCommMonoid M] (f : ℕ → M) (n : ℕ) :
    ((List.range n).map f).sum = ∑ j ∈ Finset.range n, f j := by
  induction n with
  | zero => simp
  | succ n ih =>
    rw [List.range_succ, List.map_append, List.sum_append, Finset.sum_range_succ, ih]
    simp

/-- The rotation factor `exp(1j * speed * t)` of the reconstruction equals
the character `exp(2πi·f·t/n)` at integer sample indices: the negative
frequency bins differ from `f/n` by the integer `-t` full turns. -/
lemma speed_exp (n : ℕ) (hn : 0 < n) (f t : ℕ) :
    Complex.exp (Complex.I * ((2 * Real.pi * fftfreq n f : ℝ) : ℂ) * t) =
      eN n ((f : ℤ) * t) := by
  rw [eN, fftfreq]
  split_ifs with h
  · congr 1
    push_cast
    ring
  · have hne : (n : ℂ) ≠ 0 := Nat.cast_ne_zero.mpr hn.ne'
    have harg : Complex.I * ((2 * Real.pi * (((f : ℝ) - n) / n) : ℝ) : ℂ) * t =
        2 * (Real.pi : ℂ) * Complex.I * (((f : ℤ) * t : ℤ) : ℂ) / n +
          ((-(t : ℤ) : ℤ) : ℂ) * (2 * (Real.pi : ℂ) * Complex.I) := by
      push_cast
      field_simp
      ring
    rw [harg, Complex.exp_add, Complex.exp_int_mul_two_pi_mul_I, mul_one]

/-- The reconstruction entry is the sum, over the `k` strongest-ranked
frequency indices, of the coefficient times the forward character. -/
lemma reconPoint_eq (s : ℕ → ℂ) (n k : ℕ) (hn : 0 < n) (t : ℕ) :
    reconPoint s n k t =
      (((sortedIdx s n).take k).map
        (fun f => fftv s n f * eN n ((f : ℤ) * t))).sum := by
  rw [reconPoint, fftSorted, speedList, freqsSorted,
    ← List.map_take (fftv s n), ← List.map_take (fftfreq n),
    List.map_map, List.zip_map', List.map_map]
  congr 1
  refine List.map_congr_left fun f _ => ?_
  simp only [Function.comp_apply]
  rw [speed_exp n hn f t]

lemma takeFinset_subset (s : ℕ → ℂ) (n k : ℕ) :
    (((sortedIdx s n).take k).toFinset : Finset ℕ) ⊆ Finset.range n := by
  intro a ha
  rw [List.mem_toFinset] at ha
  exact Finset.mem_range.mpr (sortedIdx_mem_lt s n (List.take_subset _ _ ha))

lemma recon_toFinset (s : ℕ → ℂ) (n k : ℕ) (hn : 0 < n) (t : ℕ) :
    reconPoint s n k t =
      ∑ f ∈ ((sortedIdx s n).take k).toFinset,
        fftv s n f * eN n ((f : ℤ) * t) := by
  rw [reconPoint_eq s n k hn t]
  exact (List.sum_toFinset _
    ((List.take_sublist _ _).nodup (sortedIdx_nodup s n))).symm

/-- The residual of the truncated reconstruction is the sum of the dropped
spectral terms. -/
lemma recon_residual (s : ℕ → ℂ) (n k : ℕ) (hn : 0 < n) (t : ℕ) (ht : t < n) :
    s t - reconPoint s n k t =
      ∑ f ∈ Finset.range n \ ((sortedIdx s n).take k).toFinset,
        fftv s n f * eN n ((f : ℤ) * t) := by
  rw [recon_toFinset s n k hn t, ← dft_inversion s n t ht,
    ← Finset.sum_sdiff (takeFinset_subset s n k)]
  exact add_sub_cancel_right _ _

/-- The summed squared residual of the `k`-component reconstruction equals
`n` times the energy of the dropped coefficients. -/
lemma recon_error (s : ℕ → ℂ) (n k : ℕ) (hn : 0 < n) :
    ∑ t ∈ Finset.range n, Complex.normSq (s t - reconPoint s n k t) =
      n * ∑ f ∈ Finset.range n \ ((sortedIdx s n).take k).toFinset,
        Complex.normSq (fftv s n f) := by
  rw [← energy_sum n hn (fftv s n) _ Finset.sdiff_subset]
  refine Finset.sum_congr rfl fun t htm => ?_
  rw [recon_residual s n k hn t (Finset.mem_range.mp htm)]

/-- C1: for a sample sequence of length `n`, decomposing with `k = n`
(no truncation) and evaluating the reconstruction at any of the `n`
original sample indices reproduces the original sample (the exact-arithmetic
model of "within floating-point tolerance" is exact equality). -/
theorem claim_C1_roundtrip (s : ℕ → ℂ) (n t : ℕ) (ht : t < n) :
    reconPoint s n n t = s t := by
  have hn : 0 < n := lt_of_le_of_lt (Nat.zero_le t) ht
  rw [reconPoint_eq s n n hn t,
    List.take_of_length_le (le_of_eq (sortedIdx_length s n))]
  rw [((sortedIdx_perm s n).map _).sum_eq, list_map_sum_range]
  exact dft_inversion s n t ht

theorem claim_C1_roundtrip_witness :
    reconPoint (fun _ => (1 : ℂ)) 1 1 0 = (fun _ => (1 : ℂ)) 0 :=
  claim_C1_roundtrip (fun _ => (1 : ℂ)) 1 0 (by decide)

/-- C6: the sum of squared radii of all `n` spectral components equals the
sum of squared magnitudes of the original samples divided by `n`
(Parseval's relation, exact in the real-arithmetic model). -/
theorem claim_C6_parseval (s : ℕ → ℂ) (n : ℕ) (hn : 0 < n) :
    ((radiusList s n n).map (fun r => r ^ 2)).sum =
      (∑ j ∈ Finset.range n, Complex.abs (s j) ^ 2) / n := by
  have hlist : radiusList s n n =
      (sortedIdx s n).map (fun f => Complex.abs (fftv s n f)) := by
    rw [radiusList, fftSorted,
      List.take_of_length_le (by simp [sortedIdx_length]), List.map_map]
    rfl
  rw [hlist, List.map_map, ((sortedIdx_perm s n).map _).sum_eq,
    list_map_sum_range]
  have hsq : ∀ f ∈ Finset.range n,
      ((fun r => r ^ 2) ∘ fun f => Complex.abs (fftv s n f)) f =
        Complex.normSq (fftv s n f) := fun f _ => by
    simp [Function.comp, Complex.sq_abs]
  rw [Finset.sum_congr rfl hsq, parseval s n hn]
  congr 1
  refine Finset.sum_congr rfl fun j _ => ?_
  rw [Complex.sq_abs]

theorem claim_C6_parseval_witness :
    ((radiusList (fun _ => (1 : ℂ)) 1 1).map (fun r => r ^ 2)).sum =
      (∑ j ∈ Finset.range 1, Complex.abs ((fun _ => (1 : ℂ)) j) ^ 2) / ((1 : ℕ) : ℝ) :=
  claim_C6_parseval (fun _ => (1 : ℂ)) 1 (by decide)

/-- C7: for fixed sample length `n` and `k1 ≤ k2 ≤ n`, the sum of squared
residuals of the reconstruction from the top `k2` magnitude-ranked
components is at most that of the reconstruction from the top `k1`. -/
theorem claim_C7_monotone (s : ℕ → ℂ) (n k1 k2 : ℕ)
    (h12 : k1 ≤ k2) (h2n : k2 ≤ n) :
    ∑ t ∈ Finset.range n, Complex.abs (s t - reconPoint s n k2 t) ^ 2 ≤
      ∑ t ∈ Finset.range n, Complex.abs (s t - reconPoint s n k1 t) ^ 2 := by
  rcases Nat.eq_zero_or_pos n with hn0 | hn
  · subst hn0
    simp
  · simp_rw [Complex.sq_abs]
    rw [recon_error s n k1 hn, recon_error s n k2 hn]
    have hsub : (((sortedIdx s n).take k1).toFinset : Finset ℕ) ⊆
        ((sortedIdx s n).take k2).toFinset := by
      intro a ha
      rw [List.mem_toFinset] at ha ⊢
      have htk : ((sortedIdx s n).take k2).take k1 = (sortedIdx s n).take k1 := by
        rw [List.take_take, min_eq_left h12]
      rw [← htk] at ha
      exact List.take_subset _ _ ha
    apply mul_le_mul_of_nonneg_left _ (Nat.cast_nonneg n)
    apply Finset.sum_le_sum_of_subset_of_nonneg
    · exact Finset.sdiff_subset_sdiff (subset_refl _) hsub
    · intro f _ _
      exact Complex.normSq_nonneg _

theorem claim_C7_monotone_witness :
    ∑ t ∈ Finset.range 1,
        Complex.abs ((fun _ => (1 : ℂ)) t - reconPoint (fun _ => (1 : ℂ)) 1 1 t) ^ 2 ≤
      ∑ t ∈ Finset.range 1,
        Complex.abs ((fun _ => (1 : ℂ)) t - reconPoint (fun _ => (1 : ℂ)) 1 0 t) ^ 2 :=
  claim_C7_monotone (fun _ => (1 : ℂ)) 1 0 1 (by decide) (by decide)

/-- C2 counterexample: in `animate_polygon_points.update` the per-component
angle at phase `0`, speed `1`, frame `1` is `0.5`, not the claimed
`phase + speed * t = 1`. -/
theorem claim_C2_counterexample :
    ¬ (polygonTheta 0 1 1 = 0 + 1 * ((1 : ℕ) : ℝ)) := by
  rw [polygonTheta]
  push_cast
  norm_num

/-- C2 amended: in `animate_circles.update` the angle at frame `t` is
`phase + speed * t`, but in `animate_polygon_points.update` it is
`phase + speed * (t / 2)`: that synthesizer scales the frame index by 0.5. -/
theorem claim_C2_amended (t s : ℝ) (frame : ℕ) :
    circlesTheta t s frame = t + s * frame ∧
      polygonTheta t s frame = t + s * ((frame : ℝ) / 2) := by
  refine ⟨rfl, ?_⟩
  have h5 : (0.5 : ℝ) = 1 / 2 := by norm_num
  rw [polygonTheta, h5]
  ring

lemma fftv_sDelta (k : ℕ) : fftv sDelta 2 k = 1 / 2 := by
  rw [fftv, Finset.sum_range_succ, Finset.sum_range_succ, Finset.sum_range_zero]
  simp [sDelta]

lemma magKey_sDelta (j : ℕ) : magKey sDelta 2 j = 1 / 2 := by
  rw [magKey, fftv_sDelta, map_div₀]
  simp

lemma sortedIdx_sDelta : sortedIdx sDelta 2 = [1, 0] := by
  have hR : sortKeyRel (magKey sDelta 2) 0 1 :=
    Or.inr ⟨by rw [magKey_sDelta, magKey_sDelta], by norm_num⟩
  rw [sortedIdx, argsortDesc, argsortAsc]
  have hrange : List.range 2 = [0, 1] := rfl
  rw [hrange]
  simp only [List.insertionSort, List.orderedInsert]
  rw [if_pos hR]
  rfl

/-- C3 counterexample: on the impulse input of length 2 both coefficients
have magnitude `1/2`, yet the ranked index list is `[1, 0]`: the lower
original frequency index does NOT come first on ties (reversing a stable
ascending sort puts the higher index first). -/
theorem claim_C3_counterexample :
    ¬ (sortedIdx sDelta 2).Pairwise
        (fun a b => magKey sDelta 2 b < magKey sDelta 2 a ∨
          (magKey sDelta 2 a = magKey sDelta 2 b ∧ a < b)) := by
  rw [sortedIdx_sDelta]
  intro h
  rcases List.pairwise_cons.mp h with ⟨h1, _⟩
  rcases h1 0 (by simp) with h10 | ⟨_, h10⟩
  · rw [magKey_sDelta, magKey_sDelta] at h10
    exact lt_irrefl _ h10
  · exact absurd h10 (by norm_num)

/-- C3 amended: the decomposer ranks the coefficients by descending
magnitude, and on equal magnitudes the HIGHER original frequency index
comes first (the ranking is the reversal of a stable ascending sort). -/
theorem claim_C3_amended (s : ℕ → ℂ) (n : ℕ) :
    (sortedIdx s n).Pairwise
      (fun a b => magKey s n b < magKey s n a ∨
        (magKey s n a = magKey s n b ∧ b < a)) := by
  have hsorted : (argsortAsc (magKey s n) n).Sorted (sortKeyRel (magKey s n)) :=
    List.sorted_insertionSort _ _
  have hne : (sortedIdx s n).Pairwise (fun a b => a ≠ b) := sortedIdx_nodup s n
  have hrev : (sortedIdx s n).Pairwise
      (fun a b => sortKeyRel (magKey s n) b a) := by
    rw [sortedIdx, argsortDesc]
    exact List.pairwise_reverse.mpr hsorted
  refine (hrev.and hne).imp ?_
  rintro a b ⟨hab, hne'⟩
  rcases hab with h | ⟨heq, hle⟩
  · exact Or.inl h
  · exact Or.inr ⟨heq.symm, lt_of_le_of_ne hle (Ne.symm hne')⟩

/-- C9: decomposing with `k = 0` yields empty radius, phase and speed lists,
and the synthesizer terminal point of the empty chain is exactly the origin
at every frame. -/
theorem claim_C9_empty (s : ℕ → ℂ) (n t : ℕ) :
    radiusList s n 0 = [] ∧ thetaList s n 0 = [] ∧ speedList s n 0 = [] ∧
      terminalPoint (radiusList s n 0) (thetaList s n 0) (speedList s n 0) t = 0 :=
  ⟨rfl, rfl, rfl, rfl⟩

/-- C10: for `n ≥ 1` the validation reconstruction array has length `n + 1`
(the reconstruction at the `n` sample indices with its own first entry
appended once more), so its last element equals its first. -/
theorem claim_C10_append (s : ℕ → ℂ) (n k : ℕ) (hn : 1 ≤ n) :
    (fftPoints s n k).length = n + 1 ∧
      (fftPoints s n k).getLastD 0 = (fftPoints s n k).headD 0 := by
  rw [fftPoints]
  cases hb : (List.range n).map (reconPoint s n k) with
  | nil =>
    exfalso
    have hlen0 := congrArg List.length hb
    simp at hlen0
    omega
  | cons a l =>
    have hlen : (a :: l).length = n := by
      rw [← hb, List.length_map, List.length_range]
    constructor
    · rw [List.length_append]
      simp [← hlen]
    · rw [List.getLastD_concat]
      rfl

theorem claim_C10_append_witness :
    (fftPoints (fun _ => (0 : ℂ)) 1 0).length = 1 + 1 ∧
      (fftPoints (fun _ => (0 : ℂ)) 1 0).getLastD 0 =
        (fftPoints (fun _ => (0 : ℂ)) 1 0).headD 0 :=
  claim_C10_append (fun _ => (0 : ℂ)) 1 0 (by decide)

lemma argsortAsc_length (key : ℕ → ℝ) (n : ℕ) : (argsortAsc key n).length = n := by
  rw [argsortAsc, List.length_insertionSort, List.length_range]

lemma generate_length (z : List ℂ) (h : ¬ z.isEmpty = true) :
    Option.map List.length (generate_polygon_points z) = some (z.length + 1) := by
  rw [generate_polygon_points, if_neg h]
  simp [argsortAsc_length]

/-- C4 counterexample: for the two-point input `[1, -1]` (point count
`2 < 3`) the generator does not fail and does not reject the input: it
returns a polygon array of length 3. -/
theorem claim_C4_counterexample :
    ([(1 : ℂ), -1] : List ℂ).length < 3 ∧
      Option.map List.length (generate_polygon_points [(1 : ℂ), -1]) = some 3 := by
  refine ⟨by norm_num, ?_⟩
  rw [generate_length [(1 : ℂ), -1] (by simp)]
  norm_num

/-- C4 amended: `generate_polygon_points` performs no input validation.
For `n < 3` it does not raise `InvalidInput`: with `n = 0` it fails only
with an unhandled index error (modelled by `none`), and with `1 ≤ n < 3` it
returns an array of `n + 1` points. -/
theorem claim_C4_amended (z : List ℂ) (hz : z.length < 3) :
    (generate_polygon_points z = none ↔ z = []) ∧
      (z ≠ [] →
        Option.map List.length (generate_polygon_points z) = some (z.length + 1)) := by
  cases z with
  | nil => exact ⟨by simp [generate_polygon_points], fun h => absurd rfl h⟩
  | cons a l =>
    constructor
    · rw [generate_polygon_points, if_neg (by simp)]
      simp
    · intro _
      exact generate_length (a :: l) (by simp)

theorem claim_C4_amended_witness :
    (generate_polygon_points [(1 : ℂ), -1] = none ↔ ([(1 : ℂ), -1] : List ℂ) = []) ∧
      (([(1 : ℂ), -1] : List ℂ) ≠ [] →
        Option.map List.length (generate_polygon_points [(1 : ℂ), -1]) =
          some (([(1 : ℂ), -1] : List ℂ).length + 1)) :=
  claim_C4_amended [(1 : ℂ), -1] (by norm_num)

lemma linspace_length (a b : ℝ) (m : ℕ) : (linspace a b m).length = m := by
  simp [linspace]

lemma resample_length (points : List ℂ) (m : ℕ) (h : ¬ points.isEmpty = true) :
    Option.map List.length (resample_polygon_points points m) = some m := by
  rw [resample_polygon_points, if_neg h]
  simp [linspace_length]

lemma diffDists_const3 : diffDists [(1 : ℂ), 1, 1] = [0, 0] := by
  rw [diffDists]
  simp [List.zip_cons_cons, List.zip_nil_right, sub_self]

lemma totalDist_const3 : totalDist [(1 : ℂ), 1, 1] = 0 := by
  rw [totalDist, cumDists, diffDists_const3]
  simp [cumFrom]

/-- C5 counterexample: the degenerate polygon `[1, 1, 1]` has total
perimeter 0, yet the resampler does not fail: it returns a sample array of
the requested length 2. -/
theorem claim_C5_counterexample :
    totalDist [(1 : ℂ), 1, 1] = 0 ∧
      Option.map List.length (resample_polygon_points [(1 : ℂ), 1, 1] 2) = some 2 := by
  refine ⟨totalDist_const3, ?_⟩
  exact resample_length [(1 : ℂ), 1, 1] 2 (by simp)

/-- C5 amended: the resampler performs no degeneracy check: for any
nonempty polygon of total perimeter 0 it still returns a sample array of
the requested length `m` instead of failing with `DegeneratePolygon`. -/
theorem claim_C5_amended (points : List ℂ) (m : ℕ) (hne : points ≠ [])
    (hdeg : totalDist points = 0) :
    Option.map List.length (resample_polygon_points points m) = some m := by
  cases points with
  | nil => exact absurd rfl hne
  | cons a l => exact resample_length (a :: l) m (by simp)

theorem claim_C5_amended_witness :
    Option.map List.length (resample_polygon_points [(1 : ℂ), 1, 1] 2) = some 2 :=
  claim_C5_amended [(1 : ℂ), 1, 1] 2 (by simp) totalDist_const3

lemma runFrames_consecutive (radius theta speed : List ℝ) (fuel : ℕ) :
    ∀ (i : ℕ) (tps : List ℂ),
      runFrames radius theta speed fuel i tps =
        List.range' i (runFrames radius theta speed fuel i tps).length := by
  induction fuel with
  | zero => intro i tps; rfl
  | succ fuel ih =>
    intro i tps
    by_cases h : stopCond tps
    · simp only [runFrames, if_pos h]
      rfl
    · simp only [runFrames, if_neg h]
      rw [List.length_cons, List.range'_succ]
      congr 1
      exact ih (i + 1) _

lemma runFrames_no_stop (radius theta speed : List ℝ) (fuel : ℕ) :
    ∀ (i : ℕ) (tps : List ℂ) (j : ℕ),
      j < (runFrames radius theta speed fuel i tps).length →
      ¬ stopCond (tps ++ (List.range' i j).map (terminalPoint radius theta speed)) := by
  induction fuel with
  | zero =>
    intro i tps j hj
    simp [runFrames] at hj
  | succ fuel ih =>
    intro i tps j hj
    by_cases h : stopCond tps
    · rw [show runFrames radius theta speed (fuel + 1) i tps = [] from by
        simp only [runFrames, if_pos h]] at hj
      simp at hj
    · simp only [runFrames, if_neg h, List.length_cons] at hj
      cases j with
      | zero => simpa using h
      | succ j =>
        have hj' : j < (runFrames radius theta speed fuel (i + 1)
            (tps ++ [terminalPoint radius theta speed i])).length := by omega
        have hrec := ih (i + 1) (tps ++ [terminalPoint radius theta speed i]) j hj'
        rw [List.range'_succ, List.map_cons, List.append_cons]
        exact hrec

/-- C8: the synthesizer loop never continues past loop closure: the
generated frame list is the consecutive block starting at `i`, and a frame
at position `j` is generated only if the loop-closure condition
(`> 2` recorded points and terminal-to-first distance `< 1e-10`) did NOT
hold for the trace state checked before yielding it; in particular once the
condition holds no further frame is generated. -/
theorem claim_C8_closure (radius theta speed : List ℝ) (fuel i : ℕ)
    (tps : List ℂ) (j : ℕ)
    (hj : j < (runFrames radius theta speed fuel i tps).length) :
    runFrames radius theta speed fuel i tps =
      List.range' i (runFrames radius theta speed fuel i tps).length ∧
      ¬ stopCond (tps ++ (List.range' i j).map (terminalPoint radius theta speed)) :=
  ⟨runFrames_consecutive radius theta speed fuel i tps,
    runFrames_no_stop radius theta speed fuel i tps j hj⟩

lemma runFrames_one_nil : runFrames [] [] [] 1 0 [] = [0] := by
  have h : ¬ stopCond ([] : List ℂ) := by simp [stopCond]
  simp only [show (1 : ℕ) = 0 + 1 from rfl, runFrames, if_neg h]

theorem claim_C8_closure_witness :
    runFrames [] [] [] 1 0 [] =
      List.range' 0 (runFrames [] [] [] 1 0 []).length ∧
      ¬ stopCond (([] : List ℂ) ++
        (List.range' 0 0).map (terminalPoint [] [] [])) :=
  claim_C8_closure [] [] [] 1 0 [] 0 (by rw [runFrames_one_nil]; norm_num)

end

end EpicycleModel
